import Mathlib

/-!
# Verification of the `ruby-string` library

A shallow embedding of the `rust-ruby-string` repository (files
`src/string.rs`, `src/iterator.rs`) together with proofs about it.

Rust strings are modelled as `List Char`; all indices recorded in the data
structure are **byte** offsets, computed with `Char.utf8Size`, exactly as
Rust's `String::len` / byte slicing do.  Byte slicing of a string is
modelled by `sliceBytes`, which returns `none` exactly when the
corresponding Rust slice expression `&s[a..b]` would panic (range
inverted, out of bounds, or a bound not on a character boundary).
-/

set_option maxHeartbeats 1000000

namespace RubyStr

/-- UTF-8 byte length of a character list; models Rust `str::len()`. -/
def utf8Len (s : List Char) : Nat := (s.map Char.utf8Size).sum

/-- Drop the first `n` bytes of a string.  Returns `none` when `n` is not
on a character boundary or exceeds the byte length. -/
def dropBytes : List Char → Nat → Option (List Char)
  | s, 0 => some s
  | [], _ + 1 => none
  | c :: cs, n + 1 =>
      if c.utf8Size ≤ n + 1 then dropBytes cs (n + 1 - c.utf8Size) else none

/-- Take the first `n` bytes of a string.  Returns `none` when `n` is not
on a character boundary or exceeds the byte length. -/
def takeBytes : List Char → Nat → Option (List Char)
  | _, 0 => some []
  | [], _ + 1 => none
  | c :: cs, n + 1 =>
      if c.utf8Size ≤ n + 1 then
        (takeBytes cs (n + 1 - c.utf8Size)).map (fun t => c :: t)
      else none

/-- Byte slice `&s[a..b]` of Rust; `none` models a panic. -/
def sliceBytes (s : List Char) (a b : Nat) : Option (List Char) :=
  if a ≤ b then (dropBytes s a).bind (fun t => takeBytes t (b - a)) else none

/-- `Placement` from `src/string.rs`: byte ranges into the packed buffers. -/
structure Placement where
  text_start : Nat
  text_end : Nat
  ruby_start : Nat
  ruby_end : Nat
deriving DecidableEq, Repr

/-- `Segment` from `src/iterator.rs`.  The borrowed `&str` views are
modelled as character-list values. -/
inductive Segment where
  | plain (text : List Char)
  | rubied (text : List Char) (ruby : List Char)
deriving DecidableEq, Repr

/-- `Segment::plain_text` from `src/iterator.rs`. -/
def Segment.plain_text : Segment → List Char
  | .plain t => t
  | .rubied t _ => t

/-- `Segment::to_interlinear_encoding` from `src/iterator.rs`:
`format!("\u{FFF9}{}\u{FFFA}{}\u{FFFB}", text, ruby)` for rubied parts. -/
def Segment.to_interlinear_encoding : Segment → List Char
  | .plain t => t
  | .rubied t r => '\uFFF9' :: t ++ '\uFFFA' :: r ++ ['\uFFFB']

/-- `RubyString` from `src/string.rs`. -/
structure RubyString where
  packed_text : List Char
  packed_ruby : List Char
  placements : List Placement
deriving DecidableEq, Repr

/-- `RubyString::new`. -/
def RubyString.new : RubyString := ⟨[], [], []⟩

/-- `RubyString::push_str`: appends plain text to `packed_text`. -/
def RubyString.push_str (rs : RubyString) (s : List Char) : RubyString :=
  ⟨rs.packed_text ++ s, rs.packed_ruby, rs.placements⟩

/-- `RubyString::push_segment`. -/
def RubyString.push_segment (rs : RubyString) : Segment → RubyString
  | .plain t => ⟨rs.packed_text ++ t, rs.packed_ruby, rs.placements⟩
  | .rubied t r =>
      ⟨rs.packed_text ++ t, rs.packed_ruby ++ r,
        rs.placements ++
          [⟨utf8Len rs.packed_text, utf8Len rs.packed_text + utf8Len t,
            utf8Len rs.packed_ruby, utf8Len rs.packed_ruby + utf8Len r⟩]⟩

/-- `impl Extend<Segment> for RubyString`: pushes each segment in order. -/
def RubyString.extend (rs : RubyString) (l : List Segment) : RubyString :=
  l.foldl RubyString.push_segment rs

/-- Container obtained from `RubyString::new()` by a sequence of pushes.
Every container reachable through the public API is of this form:
`new()` is `build []`, `From<T>` gives `build [.plain s]`,
`push_str s` is `push_segment (.plain s)`, and `collect`/`extend`
fold `push_segment` over a segment sequence. -/
def RubyString.build (pushes : List Segment) : RubyString :=
  RubyString.new.extend pushes

/-- `impl From<T> for RubyString` (text goes to `packed_text`, no ruby). -/
def RubyString.from_plain (s : List Char) : RubyString := ⟨s, [], []⟩

/-- `SegmentIterator` from `src/iterator.rs`.  The `string` field holds the
borrowed container by value. -/
structure SegmentIterator where
  string : RubyString
  next_text_start : Nat
  next_placement_idx : Nat
deriving DecidableEq, Repr

/-- `RubyString::segments`. -/
def RubyString.segments (rs : RubyString) : SegmentIterator := ⟨rs, 0, 0⟩

/-- Result of one call to `SegmentIterator::next`: `panicked` models a Rust
panic (out-of-bounds or non-boundary slicing), `done` models `None`,
`yield s it` models `Some(s)` together with the updated iterator state. -/
inductive Step where
  | panicked
  | done
  | yield (s : Segment) (it : SegmentIterator)
deriving DecidableEq, Repr

/-- `SegmentIterator::next` from `src/iterator.rs`, translated branch by
branch.  Indexing `placements[idx]` and the byte-slice expressions are
modelled with `Option`; a `none` becomes `Step.panicked`. -/
def SegmentIterator.next (it : SegmentIterator) : Step :=
  if it.next_text_start ≥ utf8Len it.string.packed_text then .done
  else if it.next_placement_idx ≥ it.string.placements.length then
    match sliceBytes it.string.packed_text it.next_text_start
        (utf8Len it.string.packed_text) with
    | none => .panicked
    | some text =>
        .yield (.plain text)
          ⟨it.string, utf8Len it.string.packed_text, it.next_placement_idx⟩
  else
    match it.string.placements[it.next_placement_idx]? with
    | none => .panicked
    | some p =>
        if it.next_text_start < p.text_start then
          match sliceBytes it.string.packed_text it.next_text_start
              p.text_start with
          | none => .panicked
          | some text =>
              .yield (.plain text) ⟨it.string, p.text_start, it.next_placement_idx⟩
        else
          match sliceBytes it.string.packed_text p.text_start p.text_end,
              sliceBytes it.string.packed_ruby p.ruby_start p.ruby_end with
          | some text, some ruby =>
              .yield (.rubied text ruby)
                ⟨it.string, p.text_end, it.next_placement_idx + 1⟩
          | _, _ => .panicked

/-- Termination measure for iterating `next`. -/
def SegmentIterator.size (it : SegmentIterator) : Nat :=
  (utf8Len it.string.packed_text + 1) *
      (it.string.placements.length + 1 - it.next_placement_idx) +
    (utf8Len it.string.packed_text - it.next_text_start)

/-- Fuelled driver loop for the iterator.  `none` when a step panicked or
the fuel ran out; `runFuel_congr` below shows the result is independent of
the fuel once the fuel exceeds `SegmentIterator.size`. -/
def runFuel : Nat → SegmentIterator → Option (List Segment)
  | 0, _ => none
  | n + 1, it =>
      match it.next with
      | .panicked => none
      | .done => some []
      | .yield s it2 => (runFuel n it2).map (fun l => s :: l)

/-- Drive the iterator to exhaustion: the list of all yielded segments, or
`none` if some step panicked. -/
def SegmentIterator.run (it : SegmentIterator) : Option (List Segment) :=
  runFuel (it.size + 1) it

/-- All segments of a `RubyString`, via a fresh iterator. -/
def RubyString.segmentsList (rs : RubyString) : Option (List Segment) :=
  rs.segments.run

/-- `RubyString::to_plain_text`: `self.segments().map(|s| s.plain_text()).collect()`. -/
def RubyString.to_plain_text (rs : RubyString) : Option (List Char) :=
  rs.segmentsList.map (fun l => (l.map Segment.plain_text).flatten)

/-- `RubyString::to_interlinear_encoding`:
`self.segments().map(|s| s.to_interlinear_encoding()).collect()`. -/
def RubyString.to_interlinear_encoding (rs : RubyString) : Option (List Char) :=
  rs.segmentsList.map (fun l => (l.map Segment.to_interlinear_encoding).flatten)

/-! ## Canonical description of containers built by the public API

A sequence of pushes is grouped into `Block`s: each block is one rubied
push together with the plain text accumulated immediately before it; the
plain text after the last rubied push is the `tail`. -/

/-- One rubied push plus the plain text immediately preceding it. -/
structure Block where
  pre : List Char
  txt : List Char
  rub : List Char
deriving DecidableEq, Repr

/-- The `packed_text` contributed by a block list followed by a tail. -/
def blocksText : List Block → List Char → List Char
  | [], tail => tail
  | b :: rest, tail => b.pre ++ (b.txt ++ blocksText rest tail)

/-- The `packed_ruby` contributed by a block list. -/
def blocksRuby : List Block → List Char
  | [] => []
  | b :: rest => b.rub ++ blocksRuby rest

/-- The placement list contributed by a block list, starting at the given
byte offsets into the two packed buffers. -/
def blocksPlacements (tOff rOff : Nat) : List Block → List Placement
  | [] => []
  | b :: rest =>
      ⟨tOff + utf8Len b.pre, tOff + utf8Len b.pre + utf8Len b.txt, rOff,
          rOff + utf8Len b.rub⟩ ::
        blocksPlacements (tOff + utf8Len b.pre + utf8Len b.txt)
          (rOff + utf8Len b.rub) rest

/-- The segment sequence the iterator reconstructs from a block list: the
plain text before a rubied run is a single plain segment when non-empty;
a rubied run is yielded unless its base text is empty and no base text
follows it at all (in which case iteration has already terminated). -/
def expectedSegs : List Block → List Char → List Segment
  | [], tail => if tail = [] then [] else [.plain tail]
  | b :: rest, tail =>
      (if b.pre = [] then [] else [.plain b.pre]) ++
        (if b.txt = [] ∧ blocksText rest tail = [] then []
         else .rubied b.txt b.rub :: expectedSegs rest tail)

/-! ## From push sequences to blocks -/

/-- Concatenation, in push order, of the base-text component of each push. -/
def textOf : List Segment → List Char
  | [] => []
  | s :: rest => s.plain_text ++ textOf rest

/-- Concatenation, in push order, of the gloss component of each rubied push. -/
def rubyOf : List Segment → List Char
  | [] => []
  | .plain _ :: rest => rubyOf rest
  | .rubied _ r :: rest => r ++ rubyOf rest

/-- The placement list created by a push sequence, starting from the given
byte offsets into the two packed buffers. -/
def placementsOf (tOff rOff : Nat) : List Segment → List Placement
  | [] => []
  | .plain t :: rest => placementsOf (tOff + utf8Len t) rOff rest
  | .rubied t r :: rest =>
      ⟨tOff, tOff + utf8Len t, rOff, rOff + utf8Len r⟩ ::
        placementsOf (tOff + utf8Len t) (rOff + utf8Len r) rest

/-- Group a push sequence into blocks: each rubied push opens a block that
absorbs the plain pushes immediately before it; trailing plain pushes
form the tail. -/
def toBlocks : List Segment → List Block × List Char
  | [] => ([], [])
  | .plain t :: rest =>
      match toBlocks rest with
      | ([], tail) => ([], t ++ tail)
      | (b :: bs, tail) => (⟨t ++ b.pre, b.txt, b.rub⟩ :: bs, tail)
  | .rubied t r :: rest => (⟨[], t, r⟩ :: (toBlocks rest).1, (toBlocks rest).2)

/-- The interlinear encoding contributed by a block list and tail. -/
def encodeBlocks : List Block → List Char → List Char
  | [], tail => tail
  | b :: rest, tail =>
      b.pre ++
        (if b.txt = [] ∧ blocksText rest tail = [] then []
         else ('\uFFF9' :: b.txt ++ '\uFFFA' :: b.rub ++ ['\uFFFB']) ++
           encodeBlocks rest tail)

/-- The interlinear encoding predicted directly from the push sequence:
plain pushes verbatim, each rubied push as an anchor/separator/terminator
triple, except that a rubied push whose base text is empty and after which
no base text is ever pushed contributes nothing (and neither does anything
after it, all remaining base text being empty). -/
def encodePushes : List Segment → List Char
  | [] => []
  | .plain t :: rest => t ++ encodePushes rest
  | .rubied t r :: rest =>
      if t = [] ∧ textOf rest = [] then []
      else ('\uFFF9' :: t ++ '\uFFFA' :: r ++ ['\uFFFB']) ++ encodePushes rest

/-- Whether a segment is a `Plain` run. -/
def Segment.isPlain : Segment → Bool
  | .plain _ => true
  | .rubied _ _ => false

/-! ## Reachable iterator states -/

/-- Advance an iterator `n` times; `none` when the iterator stops (or a
step panics) before the n-th yield. -/
def stepsN : Nat → SegmentIterator → Option SegmentIterator
  | 0, it => some it
  | n + 1, it =>
      (stepsN n it).bind (fun it2 =>
        match it2.next with
        | .yield _ it3 => some it3
        | _ => none)

/-- The trivial reading of `to_plain_text` taken from the spec's words:
"returns a freshly materialized buffer containing only the base text ...
(trivial: this is just `base_text` itself, exposed read-only or copied)". -/
def to_plain_text_spec (rs : RubyString) : List Char := rs.packed_text

/-- The container of the spec's concrete scenario: plain "ここは", rubied
("東", "とう"), rubied ("京", "きょう"), plain "です". -/
def exampleRS : RubyString :=
  RubyString.build [Segment.plain "ここは".toList,
    Segment.rubied "東".toList "とう".toList,
    Segment.rubied "京".toList "きょう".toList,
    Segment.plain "です".toList]

/-! ## Byte-length and slicing lemmas -/

@[simp] theorem utf8Len_nil : utf8Len [] = 0 := rfl

@[simp] theorem utf8Len_cons (c : Char) (s : List Char) :
    utf8Len (c :: s) = c.utf8Size + utf8Len s := by
  simp [utf8Len]

@[simp] theorem utf8Len_append (a b : List Char) :
    utf8Len (a ++ b) = utf8Len a + utf8Len b := by
  simp [utf8Len]

theorem utf8Len_pos {s : List Char} (h : s ≠ []) : 0 < utf8Len s := by
  cases s with
  | nil => exact absurd rfl h
  | cons c cs =>
      have := Char.utf8Size_pos c
      simp only [utf8Len_cons]
      omega

theorem utf8Len_eq_zero {s : List Char} : utf8Len s = 0 ↔ s = [] := by
  constructor
  · intro h
    by_contra hne
    exact absurd h (Nat.ne_of_gt (utf8Len_pos hne))
  · intro h
    subst h
    rfl

theorem dropBytes_cons_add (c : Char) (s : List Char) (n : Nat) :
    dropBytes (c :: s) (c.utf8Size + n) = dropBytes s n := by
  have h1 : 0 < c.utf8Size := Char.utf8Size_pos c
  obtain ⟨m, hm⟩ : ∃ m, c.utf8Size + n = m + 1 := ⟨c.utf8Size + n - 1, by omega⟩
  rw [hm]
  simp only [dropBytes]
  rw [if_pos (by omega)]
  congr 1
  omega

theorem takeBytes_cons_add (c : Char) (s : List Char) (n : Nat) :
    takeBytes (c :: s) (c.utf8Size + n) = (takeBytes s n).map (fun t => c :: t) := by
  have h1 : 0 < c.utf8Size := Char.utf8Size_pos c
  obtain ⟨m, hm⟩ : ∃ m, c.utf8Size + n = m + 1 := ⟨c.utf8Size + n - 1, by omega⟩
  rw [hm]
  simp only [takeBytes]
  rw [if_pos (by omega)]
  congr 2
  omega

@[simp] theorem dropBytes_zero (s : List Char) : dropBytes s 0 = some s := by
  cases s <;> rfl

@[simp] theorem takeBytes_zero (s : List Char) : takeBytes s 0 = some [] := by
  cases s <;> rfl

theorem dropBytes_append (a b : List Char) :
    dropBytes (a ++ b) (utf8Len a) = some b := by
  induction a with
  | nil => simp
  | cons c cs ih =>
      rw [List.cons_append, utf8Len_cons, dropBytes_cons_add]
      exact ih

theorem takeBytes_append (a b : List Char) :
    takeBytes (a ++ b) (utf8Len a) = some a := by
  induction a with
  | nil => simp
  | cons c cs ih =>
      rw [List.cons_append, utf8Len_cons, takeBytes_cons_add, ih]
      rfl

theorem dropBytes_len :
    ∀ (s : List Char) (n : Nat) (t : List Char),
      dropBytes s n = some t → n + utf8Len t = utf8Len s
  | s, 0, t, h => by
      simp only [dropBytes, Option.some.injEq] at h
      subst h
      simp
  | [], n + 1, t, h => by
      simp only [dropBytes] at h
      exact Option.noConfusion h
  | c :: cs, n + 1, t, h => by
      simp only [dropBytes] at h
      by_cases hc : c.utf8Size ≤ n + 1
      · rw [if_pos hc] at h
        have := dropBytes_len cs (n + 1 - c.utf8Size) t h
        simp only [utf8Len_cons]
        omega
      · rw [if_neg hc] at h
        simp at h

theorem takeBytes_len :
    ∀ (s : List Char) (n : Nat) (t : List Char),
      takeBytes s n = some t → utf8Len t = n ∧ n ≤ utf8Len s
  | s, 0, t, h => by
      simp only [takeBytes, Option.some.injEq] at h
      subst h
      simp
  | [], n + 1, t, h => by
      simp only [takeBytes] at h
      exact Option.noConfusion h
  | c :: cs, n + 1, t, h => by
      simp only [takeBytes] at h
      by_cases hc : c.utf8Size ≤ n + 1
      · rw [if_pos hc] at h
        cases ht : takeBytes cs (n + 1 - c.utf8Size) with
        | none => rw [ht] at h; simp at h
        | some t2 =>
            rw [ht] at h
            simp only [Option.map_some', Option.some.injEq] at h
            subst h
            have := takeBytes_len cs (n + 1 - c.utf8Size) t2 ht
            simp only [utf8Len_cons]
            omega
      · rw [if_neg hc] at h
        simp at h

/-- A successful byte slice has an ordered, in-bounds range, and the result
has exactly the requested byte length. -/
theorem sliceBytes_spec {s : List Char} {a b : Nat} {t : List Char}
    (h : sliceBytes s a b = some t) :
    a ≤ b ∧ b ≤ utf8Len s ∧ utf8Len t = b - a := by
  unfold sliceBytes at h
  by_cases hab : a ≤ b
  · rw [if_pos hab] at h
    cases hd : dropBytes s a with
    | none => rw [hd] at h; simp at h
    | some u =>
        rw [hd] at h
        simp only [Option.some_bind] at h
        have h1 := dropBytes_len s a u hd
        have h2 := takeBytes_len u (b - a) t h
        exact ⟨hab, by omega, by omega⟩
  · rw [if_neg hab] at h
    simp at h

/-- Slicing the middle component out of a three-part concatenation. -/
theorem sliceBytes_append (a b c : List Char) :
    sliceBytes (a ++ (b ++ c)) (utf8Len a) (utf8Len a + utf8Len b) = some b := by
  unfold sliceBytes
  rw [if_pos (Nat.le_add_right _ _), dropBytes_append]
  simp only [Option.bind_some, Nat.add_sub_cancel_left]
  exact takeBytes_append b c

/-- Slicing a suffix out of a two-part concatenation. -/
theorem sliceBytes_append₂ (a b : List Char) :
    sliceBytes (a ++ b) (utf8Len a) (utf8Len a + utf8Len b) = some b := by
  have h := sliceBytes_append a b []
  rwa [List.append_nil] at h

/-! ## Termination of the iterator -/

/-- Every yielded step strictly decreases the iterator measure. -/
theorem next_yield_size {it : SegmentIterator} {s : Segment} {it2 : SegmentIterator}
    (h : it.next = .yield s it2) : it2.size < it.size := by
  unfold SegmentIterator.next at h
  by_cases h1 : it.next_text_start ≥ utf8Len it.string.packed_text
  · rw [if_pos h1] at h
    exact Step.noConfusion h
  rw [if_neg h1] at h
  by_cases h2 : it.next_placement_idx ≥ it.string.placements.length
  · rw [if_pos h2] at h
    cases hs : sliceBytes it.string.packed_text it.next_text_start
        (utf8Len it.string.packed_text) with
    | none => rw [hs] at h; exact Step.noConfusion h
    | some text =>
        rw [hs] at h
        injection h with hseg hit
        subst hit
        simp only [SegmentIterator.size]
        have hB : 0 < utf8Len it.string.packed_text - it.next_text_start := by omega
        omega
  rw [if_neg h2] at h
  cases hp : it.string.placements[it.next_placement_idx]? with
  | none => rw [hp] at h; exact Step.noConfusion h
  | some p =>
      simp only [hp] at h
      by_cases h3 : it.next_text_start < p.text_start
      · rw [if_pos h3] at h
        cases hs : sliceBytes it.string.packed_text it.next_text_start p.text_start with
        | none => rw [hs] at h; exact Step.noConfusion h
        | some text =>
            rw [hs] at h
            injection h with hseg hit
            subst hit
            simp only [SegmentIterator.size]
            have hb := (sliceBytes_spec hs).2.1
            have hB : utf8Len it.string.packed_text - p.text_start <
                utf8Len it.string.packed_text - it.next_text_start := by omega
            omega
      · rw [if_neg h3] at h
        cases hs : sliceBytes it.string.packed_text p.text_start p.text_end with
        | none => rw [hs] at h; exact Step.noConfusion h
        | some text =>
            cases hr : sliceBytes it.string.packed_ruby p.ruby_start p.ruby_end with
            | none => rw [hs, hr] at h; exact Step.noConfusion h
            | some ruby =>
                rw [hs, hr] at h
                injection h with hseg hit
                subst hit
                simp only [SegmentIterator.size]
                have hidx : it.next_placement_idx < it.string.placements.length := by
                  omega
                have hexp : (utf8Len it.string.packed_text + 1) *
                    (it.string.placements.length + 1 - it.next_placement_idx) =
                    (utf8Len it.string.packed_text + 1) *
                      (it.string.placements.length - it.next_placement_idx) +
                      (utf8Len it.string.packed_text + 1) := by
                  have hq : it.string.placements.length + 1 - it.next_placement_idx =
                      (it.string.placements.length - it.next_placement_idx) + 1 := by
                    omega
                  rw [hq, Nat.mul_succ]
                have hsh : it.string.placements.length + 1 - (it.next_placement_idx + 1) =
                    it.string.placements.length - it.next_placement_idx := by omega
                rw [hsh, hexp]
                omega

/-- The fuelled loop is insensitive to the fuel once it exceeds the measure. -/
theorem runFuel_congr :
    ∀ (k n m : Nat) (it : SegmentIterator), it.size ≤ k →
      it.size < n → it.size < m → runFuel n it = runFuel m it := by
  intro k
  induction k with
  | zero =>
      intro n m it hk hn hm
      obtain ⟨a, rfl⟩ : ∃ a, n = a + 1 := ⟨n - 1, by omega⟩
      obtain ⟨b, rfl⟩ : ∃ b, m = b + 1 := ⟨m - 1, by omega⟩
      cases hy : it.next with
      | panicked => simp only [runFuel, hy]
      | done => simp only [runFuel, hy]
      | yield s it2 => exact absurd (next_yield_size hy) (by omega)
  | succ k ih =>
      intro n m it hk hn hm
      obtain ⟨a, rfl⟩ : ∃ a, n = a + 1 := ⟨n - 1, by omega⟩
      obtain ⟨b, rfl⟩ : ∃ b, m = b + 1 := ⟨m - 1, by omega⟩
      cases hy : it.next with
      | panicked => simp only [runFuel, hy]
      | done => simp only [runFuel, hy]
      | yield s it2 =>
          have hlt := next_yield_size hy
          simp only [runFuel, hy]
          rw [ih a b it2 (by omega) (by omega) (by omega)]

/-- One-step unfolding of `SegmentIterator.run`. -/
theorem run_eq (it : SegmentIterator) :
    it.run =
      match it.next with
      | .panicked => none
      | .done => some []
      | .yield s it2 => (it2.run).map (fun l => s :: l) := by
  unfold SegmentIterator.run
  cases hy : it.next with
  | panicked => simp only [runFuel, hy]
  | done => simp only [runFuel, hy]
  | yield s it2 =>
      have hlt := next_yield_size hy
      simp only [runFuel, hy]
      rw [runFuel_congr it2.size it.size (it2.size + 1) it2 (le_refl _) (by omega) (by omega)]
      simp only [runFuel]

/-! ## Evaluation of `next` at the states arising from well-formed containers -/

/-- Exhaustion (branch 1 of `next`): once the cursor has reached the end of
`packed_text`, `next` returns `None` whatever the remaining placements are. -/
theorem next_done (rs : RubyString) (c i : Nat)
    (h : utf8Len rs.packed_text ≤ c) :
    SegmentIterator.next ⟨rs, c, i⟩ = .done := by
  unfold SegmentIterator.next
  rw [if_pos h]

/-- Branch 2 of `next`: only plain text left. -/
theorem next_final_plain (rs : RubyString) (ct tail : List Char) (i : Nat)
    (htext : rs.packed_text = ct ++ tail)
    (hlen : rs.placements.length ≤ i) (ht : tail ≠ []) :
    SegmentIterator.next ⟨rs, utf8Len ct, i⟩ =
      .yield (.plain tail) ⟨rs, utf8Len rs.packed_text, i⟩ := by
  have hpos := utf8Len_pos ht
  unfold SegmentIterator.next
  rw [if_neg (by simp only [htext, utf8Len_append]; omega), if_pos hlen]
  have hs : sliceBytes rs.packed_text (utf8Len ct) (utf8Len rs.packed_text) =
      some tail := by
    rw [htext, utf8Len_append]
    exact sliceBytes_append₂ ct tail
  rw [hs]

/-- Branch 3 of `next`: plain text before the next placement. -/
theorem next_pre_plain (rs : RubyString) (ct pre rest0 : List Char)
    (cp pl2 : List Placement) (p : Placement)
    (htext : rs.packed_text = ct ++ (pre ++ rest0))
    (hpl : rs.placements = cp ++ p :: pl2)
    (hts : p.text_start = utf8Len ct + utf8Len pre)
    (hpre : pre ≠ []) :
    SegmentIterator.next ⟨rs, utf8Len ct, cp.length⟩ =
      .yield (.plain pre) ⟨rs, p.text_start, cp.length⟩ := by
  have hpos := utf8Len_pos hpre
  unfold SegmentIterator.next
  rw [if_neg (by simp only [htext, utf8Len_append]; omega)]
  rw [if_neg (by simp only [hpl, List.length_append, List.length_cons]; omega)]
  have hget : rs.placements[cp.length]? = some p := by
    rw [hpl, List.getElem?_append_right (le_refl _)]
    simp
  simp only [hget]
  rw [if_pos (by omega)]
  have hs : sliceBytes rs.packed_text (utf8Len ct) p.text_start = some pre := by
    rw [htext, hts]
    exact sliceBytes_append ct pre rest0
  rw [hs]

/-- Branch 4 of `next`: a rubied segment starting exactly at the cursor. -/
theorem next_rubied (rs : RubyString) (ct txt rest0 cr rub rr : List Char)
    (cp pl2 : List Placement) (p : Placement)
    (htext : rs.packed_text = ct ++ (txt ++ rest0))
    (hruby : rs.packed_ruby = cr ++ (rub ++ rr))
    (hpl : rs.placements = cp ++ p :: pl2)
    (hts : p.text_start = utf8Len ct)
    (hte : p.text_end = utf8Len ct + utf8Len txt)
    (hrs : p.ruby_start = utf8Len cr)
    (hre : p.ruby_end = utf8Len cr + utf8Len rub)
    (hne : txt ≠ [] ∨ rest0 ≠ []) :
    SegmentIterator.next ⟨rs, utf8Len ct, cp.length⟩ =
      .yield (.rubied txt rub) ⟨rs, p.text_end, cp.length + 1⟩ := by
  have hpos : 0 < utf8Len txt + utf8Len rest0 := by
    cases hne with
    | inl h => have := utf8Len_pos h; omega
    | inr h => have := utf8Len_pos h; omega
  unfold SegmentIterator.next
  rw [if_neg (by simp only [htext, utf8Len_append]; omega)]
  rw [if_neg (by simp only [hpl, List.length_append, List.length_cons]; omega)]
  have hget : rs.placements[cp.length]? = some p := by
    rw [hpl, List.getElem?_append_right (le_refl _)]
    simp
  simp only [hget]
  rw [if_neg (by omega)]
  have hs : sliceBytes rs.packed_text p.text_start p.text_end = some txt := by
    rw [htext, hts, hte]
    exact sliceBytes_append ct txt rest0
  have hr : sliceBytes rs.packed_ruby p.ruby_start p.ruby_end = some rub := by
    rw [hruby, hrs, hre]
    exact sliceBytes_append cr rub rr
  rw [hs, hr]

theorem run_done {it : SegmentIterator} (h : it.next = .done) : it.run = some [] := by
  rw [run_eq, h]

theorem run_yield {it : SegmentIterator} {s : Segment} {it2 : SegmentIterator}
    (h : it.next = .yield s it2) : it.run = (it2.run).map (fun l => s :: l) := by
  rw [run_eq, h]

/-- Central characterization: running the iterator from the middle of a
container whose not-yet-visited part is described by `blocks`/`tail`
produces exactly `expectedSegs blocks tail`. -/
theorem run_blocks (tail : List Char) :
    ∀ (blocks : List Block) (rs : RubyString) (ct cr : List Char) (cp : List Placement),
      rs.packed_text = ct ++ blocksText blocks tail →
      rs.packed_ruby = cr ++ blocksRuby blocks →
      rs.placements = cp ++ blocksPlacements (utf8Len ct) (utf8Len cr) blocks →
      SegmentIterator.run ⟨rs, utf8Len ct, cp.length⟩ =
        some (expectedSegs blocks tail) := by
  intro blocks
  induction blocks with
  | nil =>
      intro rs ct cr cp htext hruby hpl
      simp only [blocksText] at htext
      simp only [blocksPlacements, List.append_nil] at hpl
      by_cases ht : tail = []
      · subst ht
        rw [run_done (next_done rs _ _ (by simp [htext]))]
        simp [expectedSegs]
      · rw [run_yield (next_final_plain rs ct tail cp.length htext (by simp [hpl]) ht)]
        rw [run_done (next_done rs _ _ (le_refl _))]
        simp [expectedSegs, ht]
  | cons b rest ih =>
      intro rs ct cr cp htext hruby hpl
      simp only [blocksText] at htext
      simp only [blocksRuby] at hruby
      simp only [blocksPlacements] at hpl
      by_cases hg : b.txt = [] ∧ blocksText rest tail = []
      · -- the rubied run starts at the very end of the text: never yielded
        by_cases hp : b.pre = []
        · rw [run_done (next_done rs _ _ (by rw [htext, hp, hg.1, hg.2]; simp))]
          simp [expectedSegs, hp, hg]
        · rw [run_yield (next_pre_plain rs ct b.pre
            (b.txt ++ blocksText rest tail) cp _ _ htext hpl rfl hp)]
          rw [run_done (next_done rs _ _ (by rw [htext, hg.1, hg.2]; simp))]
          simp [expectedSegs, hp, hg]
      · have hne : b.txt ≠ [] ∨ blocksText rest tail ≠ [] := by tauto
        by_cases hp : b.pre = []
        · -- rubied run starts right at the cursor
          simp only [hp, List.nil_append, utf8Len_nil, Nat.add_zero] at htext hpl
          rw [run_yield (next_rubied rs ct b.txt (blocksText rest tail) cr b.rub
            (blocksRuby rest) cp _ _ htext hruby hpl rfl rfl rfl rfl hne)]
          dsimp only
          rw [← utf8Len_append ct b.txt,
            show cp.length + 1 = (cp ++ [(⟨utf8Len ct, utf8Len ct + utf8Len b.txt,
              utf8Len cr, utf8Len cr + utf8Len b.rub⟩ : Placement)]).length by simp]
          rw [ih rs (ct ++ b.txt) (cr ++ b.rub) _
            (by rw [htext, List.append_assoc])
            (by rw [hruby, List.append_assoc])
            (by rw [hpl]; simp [List.append_assoc, utf8Len_append])]
          simp [expectedSegs, hp, hg]
        · -- plain run before the rubied run, then the rubied run
          rw [run_yield (next_pre_plain rs ct b.pre
            (b.txt ++ blocksText rest tail) cp _ _ htext hpl rfl hp)]
          dsimp only
          rw [← utf8Len_append ct b.pre]
          rw [run_yield (next_rubied rs (ct ++ b.pre) b.txt (blocksText rest tail)
            cr b.rub (blocksRuby rest) cp _ _
            (by rw [htext, List.append_assoc]) hruby hpl
            (by simp) (by simp) rfl rfl hne)]
          dsimp only
          rw [show utf8Len ct + utf8Len b.pre + utf8Len b.txt =
            utf8Len (ct ++ b.pre ++ b.txt) by
              simp [utf8Len_append, List.append_assoc, Nat.add_assoc],
            show cp.length + 1 = (cp ++ [(⟨utf8Len ct + utf8Len b.pre,
              utf8Len ct + utf8Len b.pre + utf8Len b.txt, utf8Len cr,
              utf8Len cr + utf8Len b.rub⟩ : Placement)]).length by simp]
          rw [ih rs (ct ++ b.pre ++ b.txt) (cr ++ b.rub) _
            (by rw [htext]; simp [List.append_assoc])
            (by rw [hruby, List.append_assoc])
            (by rw [hpl]; simp [List.append_assoc, utf8Len_append, Nat.add_assoc])]
          simp [expectedSegs, hp, hg]

theorem textOf_flatten (l : List Segment) :
    textOf l = (l.map Segment.plain_text).flatten := by
  induction l with
  | nil => rfl
  | cons s rest ih => simp [textOf, ih]

theorem extend_fields :
    ∀ (l : List Segment) (rs : RubyString),
      (rs.extend l).packed_text = rs.packed_text ++ textOf l ∧
      (rs.extend l).packed_ruby = rs.packed_ruby ++ rubyOf l ∧
      (rs.extend l).placements = rs.placements ++
        placementsOf (utf8Len rs.packed_text) (utf8Len rs.packed_ruby) l := by
  intro l
  induction l with
  | nil =>
      intro rs
      simp [RubyString.extend, textOf, rubyOf, placementsOf]
  | cons s rest ih =>
      intro rs
      cases s with
      | plain t =>
          have h := ih (rs.push_segment (.plain t))
          simp only [RubyString.extend, List.foldl_cons] at h ⊢
          simp only [RubyString.push_segment] at h ⊢
          refine ⟨?_, ?_, ?_⟩
          · rw [h.1]
            simp [textOf, Segment.plain_text, List.append_assoc]
          · rw [h.2.1]
            simp [rubyOf]
          · rw [h.2.2]
            simp [placementsOf, utf8Len_append]
      | rubied t r =>
          have h := ih (rs.push_segment (.rubied t r))
          simp only [RubyString.extend, List.foldl_cons] at h ⊢
          simp only [RubyString.push_segment] at h ⊢
          refine ⟨?_, ?_, ?_⟩
          · rw [h.1]
            simp [textOf, Segment.plain_text, List.append_assoc]
          · rw [h.2.1]
            simp [rubyOf, List.append_assoc]
          · rw [h.2.2]
            simp [placementsOf, utf8Len_append, List.append_assoc]

theorem build_fields (pushes : List Segment) :
    (RubyString.build pushes).packed_text = textOf pushes ∧
    (RubyString.build pushes).packed_ruby = rubyOf pushes ∧
    (RubyString.build pushes).placements = placementsOf 0 0 pushes := by
  have h := extend_fields pushes RubyString.new
  simpa [RubyString.build, RubyString.new, utf8Len] using h

theorem toBlocks_text :
    ∀ (l : List Segment), textOf l = blocksText (toBlocks l).1 (toBlocks l).2
  | [] => rfl
  | .plain t :: rest => by
      have ih := toBlocks_text rest
      cases h : toBlocks rest with
      | mk bs tail =>
          rw [h] at ih
          cases bs with
          | nil =>
              simp only [textOf, Segment.plain_text, toBlocks, h]
              simp only [blocksText] at ih ⊢
              rw [ih]
          | cons b bs2 =>
              simp only [textOf, Segment.plain_text, toBlocks, h]
              simp only [blocksText] at ih ⊢
              rw [ih]
              simp [List.append_assoc]
  | .rubied t r :: rest => by
      have ih := toBlocks_text rest
      simp only [textOf, Segment.plain_text, toBlocks, blocksText]
      rw [ih]
      simp

theorem toBlocks_ruby :
    ∀ (l : List Segment), rubyOf l = blocksRuby (toBlocks l).1
  | [] => rfl
  | .plain t :: rest => by
      have ih := toBlocks_ruby rest
      cases h : toBlocks rest with
      | mk bs tail =>
          rw [h] at ih
          cases bs with
          | nil => simp only [rubyOf, toBlocks, h]; exact ih
          | cons b bs2 =>
              simp only [rubyOf, toBlocks, h]
              simp only [blocksRuby] at ih ⊢
              exact ih
  | .rubied t r :: rest => by
      have ih := toBlocks_ruby rest
      simp only [rubyOf, toBlocks, blocksRuby]
      rw [ih]

theorem toBlocks_placements :
    ∀ (l : List Segment) (tOff rOff : Nat),
      placementsOf tOff rOff l = blocksPlacements tOff rOff (toBlocks l).1
  | [], tOff, rOff => rfl
  | .plain t :: rest, tOff, rOff => by
      have ih := toBlocks_placements rest (tOff + utf8Len t) rOff
      cases h : toBlocks rest with
      | mk bs tail =>
          rw [h] at ih
          cases bs with
          | nil => simp only [placementsOf, toBlocks, h]; exact ih
          | cons b bs2 =>
              simp only [placementsOf, toBlocks, h]
              simp only [blocksPlacements] at ih ⊢
              rw [ih]
              simp [utf8Len_append, Nat.add_assoc]
  | .rubied t r :: rest, tOff, rOff => by
      have ih := toBlocks_placements rest (tOff + utf8Len t) (rOff + utf8Len r)
      simp only [placementsOf, toBlocks, blocksPlacements, utf8Len_nil, Nat.add_zero]
      rw [ih]

/-- Every container built through the public API runs its iterator to the
canonical segment list without panicking. -/
theorem segmentsList_build (pushes : List Segment) :
    (RubyString.build pushes).segmentsList =
      some (expectedSegs (toBlocks pushes).1 (toBlocks pushes).2) := by
  obtain ⟨h1, h2, h3⟩ := build_fields pushes
  have h := run_blocks (toBlocks pushes).2 (toBlocks pushes).1
    (RubyString.build pushes) [] [] []
    (by rw [h1, toBlocks_text pushes]; simp)
    (by rw [h2, toBlocks_ruby pushes]; simp)
    (by rw [h3, toBlocks_placements pushes 0 0]; simp [utf8Len])
  exact h

/-! ## Flattened outputs of the canonical segment list -/

theorem expectedSegs_plain_text :
    ∀ (blocks : List Block) (tail : List Char),
      ((expectedSegs blocks tail).map Segment.plain_text).flatten =
        blocksText blocks tail
  | [], tail => by
      by_cases ht : tail = [] <;>
        simp [expectedSegs, blocksText, ht, Segment.plain_text]
  | b :: rest, tail => by
      have ih := expectedSegs_plain_text rest tail
      by_cases hg : b.txt = [] ∧ blocksText rest tail = []
      · by_cases hp : b.pre = [] <;>
          simp [expectedSegs, blocksText, hg, hg.1, hg.2, hp, Segment.plain_text]
      · by_cases hp : b.pre = [] <;>
          simp [expectedSegs, blocksText, hg, hp, Segment.plain_text, ih]

theorem expectedSegs_encoding :
    ∀ (blocks : List Block) (tail : List Char),
      ((expectedSegs blocks tail).map Segment.to_interlinear_encoding).flatten =
        encodeBlocks blocks tail
  | [], tail => by
      by_cases ht : tail = [] <;>
        simp [expectedSegs, encodeBlocks, ht, Segment.to_interlinear_encoding]
  | b :: rest, tail => by
      have ih := expectedSegs_encoding rest tail
      by_cases hg : b.txt = [] ∧ blocksText rest tail = []
      · by_cases hp : b.pre = [] <;>
          simp [expectedSegs, encodeBlocks, hg, hp, Segment.to_interlinear_encoding]
      · by_cases hp : b.pre = [] <;>
          simp [expectedSegs, encodeBlocks, hg, hp,
            Segment.to_interlinear_encoding, ih]

theorem encodePushes_eq :
    ∀ (l : List Segment),
      encodePushes l = encodeBlocks (toBlocks l).1 (toBlocks l).2
  | [] => rfl
  | .plain t :: rest => by
      have ih := encodePushes_eq rest
      cases h : toBlocks rest with
      | mk bs tail =>
          rw [h] at ih
          cases bs with
          | nil =>
              simp only [encodePushes, toBlocks, h]
              simp only [encodeBlocks] at ih ⊢
              rw [ih]
          | cons b bs2 =>
              simp only [encodePushes, toBlocks, h]
              simp only [encodeBlocks] at ih ⊢
              rw [ih]
              simp [List.append_assoc]
  | .rubied t r :: rest => by
      have ih := encodePushes_eq rest
      have htx := toBlocks_text rest
      simp only [encodePushes, toBlocks, encodeBlocks]
      rw [ih, htx]
      simp

/-! ## Lengths, ordering and adjacency -/

theorem expectedSegs_length :
    ∀ (blocks : List Block) (tail : List Char),
      (expectedSegs blocks tail).length ≤ 2 * blocks.length + 1
  | [], tail => by
      by_cases ht : tail = [] <;> simp [expectedSegs, ht]
  | b :: rest, tail => by
      have ih := expectedSegs_length rest tail
      by_cases hg : b.txt = [] ∧ blocksText rest tail = [] <;>
        by_cases hp : b.pre = [] <;>
          simp [expectedSegs, hg, hp] <;> omega

theorem blocksPlacements_length :
    ∀ (blocks : List Block) (tOff rOff : Nat),
      (blocksPlacements tOff rOff blocks).length = blocks.length
  | [], _, _ => rfl
  | b :: rest, tOff, rOff => by
      simp only [blocksPlacements, List.length_cons]
      rw [blocksPlacements_length rest]

theorem placementsOf_bounds :
    ∀ (l : List Segment) (tOff rOff : Nat) (p : Placement),
      p ∈ placementsOf tOff rOff l →
      tOff ≤ p.text_start ∧ p.text_start ≤ p.text_end ∧
        rOff ≤ p.ruby_start ∧ p.ruby_start ≤ p.ruby_end
  | [], _, _, p => by simp [placementsOf]
  | .plain t :: rest, tOff, rOff, p => by
      intro hp
      have h := placementsOf_bounds rest (tOff + utf8Len t) rOff p
        (by simpa [placementsOf] using hp)
      exact ⟨by omega, h.2.1, h.2.2.1, h.2.2.2⟩
  | .rubied t r :: rest, tOff, rOff, p => by
      intro hp
      simp only [placementsOf, List.mem_cons] at hp
      cases hp with
      | inl h =>
          subst h
          refine ⟨le_refl _, by simp, le_refl _, by simp⟩
      | inr h =>
          have hb := placementsOf_bounds rest (tOff + utf8Len t) (rOff + utf8Len r) p h
          exact ⟨by omega, hb.2.1, by omega, hb.2.2.2⟩

theorem placementsOf_chain :
    ∀ (l : List Segment) (tOff rOff : Nat),
      List.Chain' (fun p q => p.text_end ≤ q.text_start)
        (placementsOf tOff rOff l)
  | [], _, _ => List.chain'_nil
  | .plain t :: rest, tOff, rOff => placementsOf_chain rest (tOff + utf8Len t) rOff
  | .rubied t r :: rest, tOff, rOff => by
      simp only [placementsOf]
      rw [List.chain'_cons']
      refine ⟨?_, placementsOf_chain rest (tOff + utf8Len t) (rOff + utf8Len r)⟩
      intro q hq
      have hmem : q ∈ placementsOf (tOff + utf8Len t) (rOff + utf8Len r) rest :=
        List.mem_of_mem_head? hq
      have := placementsOf_bounds rest (tOff + utf8Len t) (rOff + utf8Len r) q hmem
      simp only
      omega

theorem expectedSegs_no_adjacent_plain :
    ∀ (blocks : List Block) (tail : List Char),
      List.Chain' (fun a b => a.isPlain = false ∨ b.isPlain = false)
        (expectedSegs blocks tail)
  | [], tail => by
      by_cases ht : tail = [] <;> simp [expectedSegs, ht]
  | b :: rest, tail => by
      have ih := expectedSegs_no_adjacent_plain rest tail
      by_cases hg : b.txt = [] ∧ blocksText rest tail = []
      · by_cases hp : b.pre = [] <;> simp [expectedSegs, hg, hp]
      · have htail : List.Chain' (fun a b => a.isPlain = false ∨ b.isPlain = false)
            (Segment.rubied b.txt b.rub :: expectedSegs rest tail) := by
          rw [List.chain'_cons']
          exact ⟨fun q hq => Or.inl rfl, ih⟩
        by_cases hp : b.pre = []
        · simpa [expectedSegs, hg, hp] using htail
        · simp only [expectedSegs, if_neg hp, if_neg hg, List.singleton_append]
          rw [List.chain'_cons']
          refine ⟨?_, htail⟩
          intro q hq
          simp only [List.head?_cons, Option.mem_def, Option.some.injEq] at hq
          subst hq
          right
          rfl

theorem run_some_of_yield {it : SegmentIterator} {s : Segment}
    {it2 : SegmentIterator} {l : List Segment}
    (hy : it.next = .yield s it2) (h : it.run = some l) :
    ∃ l2, it2.run = some l2 := by
  rw [run_yield hy] at h
  cases h2 : it2.run with
  | none => rw [h2] at h; simp at h
  | some l2 => exact ⟨l2, rfl⟩

theorem next_ne_panicked_of_run {it : SegmentIterator} {l : List Segment}
    (h : it.run = some l) : it.next ≠ .panicked := by
  intro hc
  rw [run_eq, hc] at h
  simp at h

theorem stepsN_run :
    ∀ (n : Nat) (it it2 : SegmentIterator) (l : List Segment),
      it.run = some l → stepsN n it = some it2 → ∃ l2, it2.run = some l2
  | 0, it, it2, l, hrun, hs => by
      simp only [stepsN, Option.some.injEq] at hs
      subst hs
      exact ⟨l, hrun⟩
  | n + 1, it, it2, l, hrun, hs => by
      simp only [stepsN] at hs
      cases hm : stepsN n it with
      | none => rw [hm] at hs; simp at hs
      | some itm =>
          rw [hm] at hs
          simp only [Option.some_bind] at hs
          obtain ⟨lm, hlm⟩ := stepsN_run n it itm l hrun hm
          cases hy : itm.next with
          | panicked => rw [hy] at hs; simp at hs
          | done => rw [hy] at hs; simp at hs
          | yield s it3 =>
              rw [hy] at hs
              simp only [Option.some.injEq] at hs
              subst hs
              exact run_some_of_yield hy hlm

/-- Any `Plain` segment yielded by `next` covers a strictly non-empty byte
range of `packed_text`, hence is a non-empty string. -/
theorem next_plain_ne_nil {it : SegmentIterator} {t : List Char}
    {it2 : SegmentIterator} (h : it.next = .yield (.plain t) it2) : t ≠ [] := by
  unfold SegmentIterator.next at h
  by_cases h1 : it.next_text_start ≥ utf8Len it.string.packed_text
  · rw [if_pos h1] at h
    exact Step.noConfusion h
  rw [if_neg h1] at h
  by_cases h2 : it.next_placement_idx ≥ it.string.placements.length
  · rw [if_pos h2] at h
    cases hs : sliceBytes it.string.packed_text it.next_text_start
        (utf8Len it.string.packed_text) with
    | none => rw [hs] at h; exact Step.noConfusion h
    | some text =>
        rw [hs] at h
        injection h with hseg hit
        injection hseg with ht
        subst ht
        have hlen := (sliceBytes_spec hs).2.2
        intro hc
        rw [hc] at hlen
        simp only [utf8Len_nil] at hlen
        omega
  rw [if_neg h2] at h
  cases hp : it.string.placements[it.next_placement_idx]? with
  | none => rw [hp] at h; exact Step.noConfusion h
  | some p =>
      simp only [hp] at h
      by_cases h3 : it.next_text_start < p.text_start
      · rw [if_pos h3] at h
        cases hs : sliceBytes it.string.packed_text it.next_text_start
            p.text_start with
        | none => rw [hs] at h; exact Step.noConfusion h
        | some text =>
            rw [hs] at h
            injection h with hseg hit
            injection hseg with ht
            subst ht
            have hlen := (sliceBytes_spec hs).2.2
            intro hc
            rw [hc] at hlen
            simp only [utf8Len_nil] at hlen
            omega
      · rw [if_neg h3] at h
        cases hs : sliceBytes it.string.packed_text p.text_start p.text_end with
        | none => rw [hs] at h; exact Step.noConfusion h
        | some text =>
            cases hr : sliceBytes it.string.packed_ruby p.ruby_start p.ruby_end with
            | none => rw [hs, hr] at h; exact Step.noConfusion h
            | some ruby =>
                rw [hs, hr] at h
                injection h with hseg hit
                exact Segment.noConfusion hseg

/-- Any rubied segment yielded by `next` comes from the placement at the
current index, and that placement starts strictly before the end of
`packed_text`.  Consequently a placement with
`text_start = utf8Len packed_text` is never yielded. -/
theorem next_rubied_placement {it : SegmentIterator} {t r : List Char}
    {it2 : SegmentIterator} (h : it.next = .yield (.rubied t r) it2) :
    ∃ p, it.string.placements[it.next_placement_idx]? = some p ∧
      p.text_start < utf8Len it.string.packed_text := by
  unfold SegmentIterator.next at h
  by_cases h1 : it.next_text_start ≥ utf8Len it.string.packed_text
  · rw [if_pos h1] at h
    exact Step.noConfusion h
  rw [if_neg h1] at h
  by_cases h2 : it.next_placement_idx ≥ it.string.placements.length
  · rw [if_pos h2] at h
    cases hs : sliceBytes it.string.packed_text it.next_text_start
        (utf8Len it.string.packed_text) with
    | none => rw [hs] at h; exact Step.noConfusion h
    | some text =>
        rw [hs] at h
        injection h with hseg hit
        exact Segment.noConfusion hseg
  rw [if_neg h2] at h
  cases hp : it.string.placements[it.next_placement_idx]? with
  | none => rw [hp] at h; exact Step.noConfusion h
  | some p =>
      simp only [hp] at h
      by_cases h3 : it.next_text_start < p.text_start
      · rw [if_pos h3] at h
        cases hs : sliceBytes it.string.packed_text it.next_text_start
            p.text_start with
        | none => rw [hs] at h; exact Step.noConfusion h
        | some text =>
            rw [hs] at h
            injection h with hseg hit
            exact Segment.noConfusion hseg
      · rw [if_neg h3] at h
        exact ⟨p, rfl, by omega⟩

/-! ## Small facts about the public constructors -/

theorem push_str_eq_push_segment (rs : RubyString) (s : List Char) :
    rs.push_str s = rs.push_segment (Segment.plain s) := rfl

theorem from_plain_eq_build (s : List Char) :
    RubyString.from_plain s = RubyString.build [Segment.plain s] := by
  unfold RubyString.from_plain RubyString.build RubyString.extend
  simp [RubyString.push_segment, RubyString.new]

theorem build_snoc (ps : List Segment) (s : Segment) :
    RubyString.build (ps ++ [s]) = (RubyString.build ps).push_segment s := by
  unfold RubyString.build RubyString.extend
  rw [List.foldl_append]
  rfl

/-! ## The claims -/

/-- C1 (amended).  For every container built through the public API,
`to_interlinear_encoding()` is exactly the concatenation, in push order, of
the plain runs emitted verbatim and of one well-balanced
U+FFF9/U+FFFA/U+FFFB triple per annotated run pushed, each triple enclosing
that run's base text and gloss — except that an annotated run whose base
text is empty and after which no further base text is pushed contributes
nothing (iteration stops at the end of `packed_text`, so its placement is
never visited; everything after it has empty base text and contributes
nothing either).  `encodePushes` is this reference encoding. -/
theorem C1_interlinear_structure_amended (pushes : List Segment) :
    (RubyString.build pushes).to_interlinear_encoding =
      some (encodePushes pushes) := by
  unfold RubyString.to_interlinear_encoding
  rw [segmentsList_build]
  simp only [Option.map_some']
  rw [expectedSegs_encoding, encodePushes_eq]

/-- C1 counterexample.  Pushing the single annotated run `("", "x")` onto a
new container yields the empty interlinear encoding: no
anchor/separator/terminator triple at all is produced for this annotated
run, contradicting the claimed "exactly one well-balanced triple per
annotated run pushed" (which would demand
`"\u{FFF9}\u{FFFA}x\u{FFFB}"`). -/
theorem C1_counterexample :
    (RubyString.build [Segment.rubied [] ['x']]).to_interlinear_encoding =
        some [] ∧
      (RubyString.build [Segment.rubied [] ['x']]).to_interlinear_encoding ≠
        some ['\uFFF9', '\uFFFA', 'x', '\uFFFB'] := by
  decide

/-- C2.  For every finite sequence of pushes (any interleaving of
`push_str` and `push_segment` with Plain or Rubied segments, starting from
`new()` — `push_str s` being definitionally `push_segment (Plain s)`,
see `push_str_eq_push_segment`), `to_plain_text()` equals the
concatenation, in push order, of the base-text component of each push,
with all glosses dropped. -/
theorem C2_plain_text_roundtrip (pushes : List Segment) :
    (RubyString.build pushes).to_plain_text =
      some ((pushes.map Segment.plain_text).flatten) := by
  unfold RubyString.to_plain_text
  rw [segmentsList_build]
  simp only [Option.map_some']
  rw [expectedSegs_plain_text, ← toBlocks_text, textOf_flatten]

/-- C3.  In every container reachable through the public API (that is,
every `build pushes`; all public operations produce containers of this
form, cf. `build_snoc`, `from_plain_eq_build`), each placement has
`text_start ≤ text_end` and `ruby_start ≤ ruby_end`, and each successive
placement's `text_start` is at least the previous placement's `text_end`:
the base-text ranges are non-decreasing and non-overlapping.  Because
every public operation again yields a `build` container, the invariant is
preserved by all of them. -/
theorem C3_placement_invariant (pushes : List Segment) :
    (∀ p ∈ (RubyString.build pushes).placements,
        p.text_start ≤ p.text_end ∧ p.ruby_start ≤ p.ruby_end) ∧
      List.Chain' (fun p q => p.text_end ≤ q.text_start)
        (RubyString.build pushes).placements := by
  have h3 := (build_fields pushes).2.2
  rw [h3]
  exact ⟨fun p hp => ⟨(placementsOf_bounds pushes 0 0 p hp).2.1,
      (placementsOf_bounds pushes 0 0 p hp).2.2.2⟩,
    placementsOf_chain pushes 0 0⟩

theorem C3_witness :
    (⟨0, 1, 0, 1⟩ : Placement).text_start ≤ (⟨0, 1, 0, 1⟩ : Placement).text_end ∧
      (⟨0, 1, 0, 1⟩ : Placement).ruby_start ≤ (⟨0, 1, 0, 1⟩ : Placement).ruby_end :=
  (C3_placement_invariant [Segment.rubied ['a'] ['b']]).1 ⟨0, 1, 0, 1⟩ (by decide)

/-- C4.  For every container reachable through the public API, the
iterator-based `to_plain_text()` (concatenating the `plain_text` of all
iterated segments) returns exactly the contents of the packed base-text
buffer: it refines the trivial buffer-copy definition `to_plain_text_spec`
taken from the spec's words. -/
theorem C4_to_plain_text_refinement (pushes : List Segment) :
    (RubyString.build pushes).to_plain_text =
      some (to_plain_text_spec (RubyString.build pushes)) := by
  have h1 := (build_fields pushes).1
  unfold RubyString.to_plain_text to_plain_text_spec
  rw [segmentsList_build]
  simp only [Option.map_some']
  rw [expectedSegs_plain_text, ← toBlocks_text, h1]

/-- C5.  For every container built through the public API, iteration is
finite and panic-free — `segmentsList` returns an actual list — and the
number of yielded segments is at most `2 × (number of placements) + 1`. -/
theorem C5_segments_length_bound (pushes : List Segment) :
    ∃ l, (RubyString.build pushes).segmentsList = some l ∧
      l.length ≤ 2 * (RubyString.build pushes).placements.length + 1 := by
  refine ⟨_, segmentsList_build pushes, ?_⟩
  have h3 := (build_fields pushes).2.2
  rw [h3, toBlocks_placements pushes 0 0,
    blocksPlacements_length (toBlocks pushes).1 0 0]
  exact expectedSegs_length _ _

/-- C6.  For every container reachable through the public API, every
iterator state reachable by repeated calls to `next()` from `segments()`
never panics on its next step: all the byte-slice expressions in `next`
(modelled by `sliceBytes`, which returns `none` exactly when the Rust
slice would panic) are in-bounds and on character boundaries, so no
public operation has a failure path. -/
theorem C6_next_never_panics (pushes : List Segment) (n : Nat)
    (it : SegmentIterator)
    (h : stepsN n (RubyString.build pushes).segments = some it) :
    it.next ≠ Step.panicked := by
  have hrun := segmentsList_build pushes
  unfold RubyString.segmentsList at hrun
  obtain ⟨l2, hl2⟩ := stepsN_run n _ it _ hrun h
  exact next_ne_panicked_of_run hl2

theorem C6_witness :
    ((RubyString.build []).segments).next ≠ Step.panicked :=
  C6_next_never_panics [] 0 (RubyString.build []).segments rfl

/-- C7.  The concrete scenario: pushing plain "ここは", rubied
("東", "とう"), rubied ("京", "きょう"), plain "です" yields the plain text
"ここは東京です", the interlinear encoding with one triple per annotated
run, and exactly the four segments in push order. -/
theorem C7_concrete_scenario :
    exampleRS.to_plain_text = some "ここは東京です".toList ∧
      exampleRS.to_interlinear_encoding =
        some "ここは\uFFF9東\uFFFAとう\uFFFB\uFFF9京\uFFFAきょう\uFFFBです".toList ∧
      exampleRS.segmentsList =
        some [Segment.plain "ここは".toList,
          Segment.rubied "東".toList "とう".toList,
          Segment.rubied "京".toList "きょう".toList,
          Segment.plain "です".toList] := by
  refine ⟨by decide, by decide, by decide⟩

/-- C8.  A placement whose `text_start` equals the byte length of
`packed_text` is never yielded: (first conjunct) iteration returns `None`
as soon as the text cursor reaches the end of `packed_text`, regardless of
remaining placements; (second conjunct) every rubied segment that is
yielded comes from the placement at the current index and that placement
satisfies `text_start < utf8Len packed_text`. -/
theorem C8_end_placement_never_yielded :
    (∀ it : SegmentIterator,
        utf8Len it.string.packed_text ≤ it.next_text_start →
          it.next = Step.done) ∧
      ∀ (it : SegmentIterator) (t r : List Char) (it2 : SegmentIterator),
        it.next = Step.yield (Segment.rubied t r) it2 →
        ∃ p, it.string.placements[it.next_placement_idx]? = some p ∧
          p.text_start < utf8Len it.string.packed_text :=
  ⟨fun it h => next_done it.string it.next_text_start it.next_placement_idx h,
   fun _ _ _ _ h => next_rubied_placement h⟩

theorem C8_witness :
    SegmentIterator.next
        ⟨RubyString.build [Segment.plain ['a'], Segment.rubied [] ['r']], 1, 0⟩ =
        Step.done ∧
      ∃ p, (RubyString.build [Segment.rubied ['a'] ['r']]).placements[(0 : Nat)]? =
          some p ∧
        p.text_start <
          utf8Len (RubyString.build [Segment.rubied ['a'] ['r']]).packed_text :=
  ⟨C8_end_placement_never_yielded.1 _ (by decide),
   C8_end_placement_never_yielded.2
     (RubyString.build [Segment.rubied ['a'] ['r']]).segments ['a'] ['r']
     ⟨RubyString.build [Segment.rubied ['a'] ['r']], 1, 1⟩ (by decide)⟩

/-- C9.  Every Plain segment yielded by a `next()` call has non-empty
text (first conjunct, for arbitrary iterator states: both plain-yielding
branches slice a strictly non-empty byte range); consequently adjacent
plain pushes are coalesced: in the segment list of any container built
through the public API, no two consecutive segments are both Plain
(second conjunct). -/
theorem C9_plain_nonempty :
    (∀ (it : SegmentIterator) (t : List Char) (it2 : SegmentIterator),
        it.next = Step.yield (Segment.plain t) it2 → t ≠ []) ∧
      ∀ (pushes l : List Segment),
        (RubyString.build pushes).segmentsList = some l →
        List.Chain' (fun a b => a.isPlain = false ∨ b.isPlain = false) l := by
  constructor
  · intro it t it2 h
    exact next_plain_ne_nil h
  · intro pushes l hl
    rw [segmentsList_build] at hl
    injection hl with hl
    subst hl
    exact expectedSegs_no_adjacent_plain _ _

theorem C9_witness :
    ((['a'] : List Char) ≠ []) ∧
      List.Chain' (fun a b => a.isPlain = false ∨ b.isPlain = false)
        [Segment.plain ['a']] :=
  ⟨C9_plain_nonempty.1 (RubyString.build [Segment.plain ['a']]).segments ['a']
      ⟨RubyString.build [Segment.plain ['a']], 1, 0⟩ (by decide),
   C9_plain_nonempty.2 [Segment.plain ['a']] [Segment.plain ['a']] (by decide)⟩

/-- C10.  `push_str` (and equivalently `push_segment` with a Plain
segment, the two being the same function) modifies only the packed
base-text buffer: `packed_ruby` and the placement list are left exactly
unchanged, and `packed_text` is extended by exactly the pushed string. -/
theorem C10_push_str_frame (rs : RubyString) (s : List Char) :
    (rs.push_str s).packed_ruby = rs.packed_ruby ∧
      (rs.push_str s).placements = rs.placements ∧
      (rs.push_str s).packed_text = rs.packed_text ++ s ∧
      rs.push_segment (Segment.plain s) = rs.push_str s :=
  ⟨rfl, rfl, rfl, rfl⟩

end RubyStr
